import Mathlib

deriving instance DecidableEq for Except

/- A shallow embedding of minesweeper.py: the Sentence constraint type and the
   MinesweeperAI knowledge engine (mark_mine, mark_safe, add_knowledge,
   make_safe_move, make_random_move), together with theorems about them.
   Python integers are modelled as Int, Python sets of cells as Finset, and
   the knowledge list as List Sentence.  Python iterates sets in an
   unspecified order; wherever the code draws an element out of a set
   (make_safe_move, random.choice in make_random_move) the pick is modelled
   canonically as the least element in lexicographic order, which is one of
   the behaviours the code can exhibit; every property stated below is
   independent of which element is drawn. -/

namespace Minesweeper

/-- A board cell: a (row, col) pair of integers. -/
abbrev Cell : Type := ℤ × ℤ

/-- Sentence: a set of board cells and a count of how many of them are mines. -/
structure Sentence where
  cells : Finset Cell
  count : ℤ
deriving DecidableEq

namespace Sentence

/-- Sentence.__sub__: set difference of the cells, difference of the counts. -/
def sub (s o : Sentence) : Sentence := ⟨s.cells \ o.cells, s.count - o.count⟩

/-- Sentence.known_mines: all cells when count equals the number of cells, else None. -/
def known_mines (s : Sentence) : Option (Finset Cell) :=
  if s.count = (s.cells.card : ℤ) then some s.cells else none

/-- Sentence.known_safes: all cells when count is zero, else None. -/
def known_safes (s : Sentence) : Option (Finset Cell) :=
  if s.count = 0 then some s.cells else none

/-- Truthiness of known_mines in a Python if-statement: not None and a
nonempty set of cells. -/
def resolvesMines (s : Sentence) : Prop :=
  s.count = (s.cells.card : ℤ) ∧ s.cells.Nonempty

instance (s : Sentence) : Decidable s.resolvesMines := by
  unfold resolvesMines; infer_instance

/-- Truthiness of known_safes in a Python if-statement: not None and a
nonempty set of cells. -/
def resolvesSafes (s : Sentence) : Prop :=
  s.count = 0 ∧ s.cells.Nonempty

instance (s : Sentence) : Decidable s.resolvesSafes := by
  unfold resolvesSafes; infer_instance

/-- Sentence.mark_mine: remove the cell and decrement the count when present. -/
def mark_mine (s : Sentence) (cell : Cell) : Sentence :=
  if cell ∈ s.cells then ⟨s.cells.erase cell, s.count - 1⟩ else s

/-- Sentence.mark_safe: remove the cell and leave the count when present. -/
def mark_safe (s : Sentence) (cell : Cell) : Sentence :=
  if cell ∈ s.cells then ⟨s.cells.erase cell, s.count⟩ else s

end Sentence

/-- Lexicographic comparison on cells, used to model set-element picks. -/
def cellLe (a b : Cell) : Prop := a.1 < b.1 ∨ (a.1 = b.1 ∧ a.2 ≤ b.2)

instance : DecidableRel cellLe := fun a b => by unfold cellLe; infer_instance

instance : IsTrans Cell cellLe :=
  ⟨fun a b c hab hbc => by unfold cellLe at *; omega⟩

instance : IsTotal Cell cellLe :=
  ⟨fun a b => by unfold cellLe; omega⟩

instance : IsAntisymm Cell cellLe :=
  ⟨fun a b h1 h2 => by
    unfold cellLe at h1 h2
    have ha : a.1 = b.1 ∧ a.2 = b.2 := by omega
    exact Prod.ext ha.1 ha.2⟩

/-- The canonical pick from a set of cells, modelling an arbitrary set-order
draw: the least element in lexicographic order, None when the set is empty. -/
def pick (s : Finset Cell) : Option Cell := (s.sort cellLe).head?

/-- MinesweeperAI state: grid parameters, moves made, known mines, known
safes, the knowledge list, and the hard-coded MINE_COUNT constant. -/
structure AIState where
  height : ℤ
  width : ℤ
  moves_made : Finset Cell
  mines : Finset Cell
  safes : Finset Cell
  knowledge : List Sentence
  MINE_COUNT : ℤ
deriving DecidableEq

namespace AIState

/-- MinesweeperAI.__init__(height, width): empty sets, no knowledge, and the
hard-coded constant MINE_COUNT = 8 (the constructor has no mine-count
parameter at all). -/
def init (height width : ℤ) : AIState :=
  ⟨height, width, ∅, ∅, ∅, [], 8⟩

/-- MinesweeperAI.mark_mine: add to self.mines and fan out over knowledge. -/
def mark_mine (s : AIState) (cell : Cell) : AIState :=
  { s with mines := insert cell s.mines,
           knowledge := s.knowledge.map (fun k => k.mark_mine cell) }

/-- MinesweeperAI.mark_safe: add to self.safes and fan out over knowledge. -/
def mark_safe (s : AIState) (cell : Cell) : AIState :=
  { s with safes := insert cell s.safes,
           knowledge := s.knowledge.map (fun k => k.mark_safe cell) }

/-- MinesweeperAI.remove_duplicates: keep the first of each group of
value-equal entries, preserving order. -/
def remove_duplicates (l : List Sentence) : List Sentence :=
  l.foldl (fun acc n => if n ∈ acc then acc else acc ++ [n]) []

/-- The bounds test x in range(0, 8) that get_nearby_cells hard-codes
(rather than consulting self.height and self.width). -/
def inRange8 (n : ℤ) : Bool := decide (0 ≤ n) && decide (n < 8)

/-- MinesweeperAI.get_nearby_cells: the 3-by-3 block around the cell, minus
the cell itself, bounds-checked against the hard-coded range(0, 8); the
method reads no field of self.  Candidates are listed in the Python loop
order (row-major). -/
def get_nearby_cells (cell : Cell) : List Cell :=
  [(cell.1 - 1, cell.2 - 1), (cell.1 - 1, cell.2), (cell.1 - 1, cell.2 + 1),
   (cell.1, cell.2 - 1), (cell.1, cell.2), (cell.1, cell.2 + 1),
   (cell.1 + 1, cell.2 - 1), (cell.1 + 1, cell.2), (cell.1 + 1, cell.2 + 1)].filter
    (fun p => inRange8 p.1 && inRange8 p.2 && decide (p ≠ cell))

/-- The list comprehension in add_knowledge: nearby cells not in moves_made
(moves_made already contains the observed cell at that point). -/
def free_neighbours (s : AIState) (cell : Cell) : List Cell :=
  (get_nearby_cells cell).filter (fun x => decide (x ∉ s.moves_made))

/-- The subset-inference loop in add_knowledge: for each existing sentence,
derive a difference sentence when one cell set contains the other (the
subset branch is checked first, as in the source). -/
def derive_additional (knowledge : List Sentence) (sentence : Sentence) : List Sentence :=
  knowledge.filterMap (fun k =>
    if sentence.cells ⊆ k.cells then some (k.sub sentence)
    else if k.cells ⊆ sentence.cells then some (sentence.sub k)
    else none)

/-- The append loop in add_knowledge: append each derived sentence not
already present (membership is tested against the growing list). -/
def append_new (knowledge : List Sentence) (l : List Sentence) : List Sentence :=
  l.foldl (fun acc a => if a ∈ acc then acc else acc ++ [a]) knowledge

/-- The closure sweep in add_knowledge, modelling the Python for-loop over
new_knowledge with in-place removal: removing the current element makes the
iterator skip the following one.  The mark_mine and mark_safe fan-out during
this sweep mutates the old self.knowledge list, which is discarded when
self.knowledge is reassigned to new_knowledge, so only the mines and safes
sets are affected; the surviving sentences keep their pre-sweep values.
Python removes the first value-equal element; the list this is applied to is
always freshly deduplicated, so that element is the current one. -/
def sweepList : List Sentence → Finset Cell → Finset Cell →
    List Sentence × Finset Cell × Finset Cell
  | [], m, f => ([], m, f)
  | x :: rest, m, f =>
    if x.resolvesMines then
      match rest with
      | [] => ([], m ∪ x.cells, f)
      | y :: rest2 =>
        let r := sweepList rest2 (m ∪ x.cells) f
        (y :: r.1, r.2)
    else if x.resolvesSafes then
      match rest with
      | [] => ([], m, f ∪ x.cells)
      | y :: rest2 =>
        let r := sweepList rest2 m (f ∪ x.cells)
        (y :: r.1, r.2)
    else
      let r := sweepList rest m f
      (x :: r.1, r.2)

/-- The first two statements of add_knowledge: record the move and mark the
observed cell safe. -/
def observed (s : AIState) (cell : Cell) : AIState :=
  mark_safe { s with moves_made := insert cell s.moves_made } cell

/-- The new sentence of add_knowledge: the unresolved neighbours of the cell
with the reported count. -/
def new_sentence (s : AIState) (cell : Cell) (count : ℤ) : Sentence :=
  ⟨(free_neighbours (observed s cell) cell).toFinset, count⟩

/-- The knowledge list of add_knowledge just before the closure sweep: the
subset-inference pass appends its derived sentences (each checked against
the growing list), then the new sentence is appended and the whole list is
deduplicated. -/
def pre_sweep (s : AIState) (cell : Cell) (count : ℤ) : List Sentence :=
  remove_duplicates
    (append_new (observed s cell).knowledge
        (derive_additional (observed s cell).knowledge (new_sentence s cell count))
      ++ [new_sentence s cell count])

/-- MinesweeperAI.add_knowledge: record the move, mark the cell safe, build
the sentence over unresolved neighbours, run the subset-inference pass,
deduplicate, and run the (single, non-reentrant) closure sweep. -/
def add_knowledge (s : AIState) (cell : Cell) (count : ℤ) : AIState :=
  let s2 := observed s cell
  let r := sweepList (pre_sweep s cell count) s2.mines s2.safes
  { s2 with knowledge := r.1, mines := r.2.1, safes := r.2.2 }

/-- MinesweeperAI.make_safe_move: an element of safes minus moves_made, or
None when that set is empty. -/
def make_safe_move (s : AIState) : Option Cell := pick (s.safes \ s.moves_made)

/-- The all_cells expression in make_random_move, exactly as written in the
source: row index x divided by width, column index x modulo height (the
float division int(x / width) truncates like integer division for the
magnitudes in play). -/
def all_cells (s : AIState) : Finset Cell :=
  (Finset.range (s.width * s.height).toNat).image
    (fun x : ℕ => (((x : ℤ) / s.width), ((x : ℤ) % s.height)))

/-- MinesweeperAI.make_random_move: when fewer than MINE_COUNT mines are
known, random.choice over the possible list, which raises IndexError
(modelled as Except.error) when the list is empty; otherwise None. -/
def make_random_move (s : AIState) : Except Unit (Option Cell) :=
  let possible := ((all_cells s \ s.moves_made) \ s.mines).sort cellLe
  if (s.mines.card : ℤ) < s.MINE_COUNT then
    match possible with
    | [] => Except.error ()
    | c :: _ => Except.ok (some c)
  else Except.ok none

end AIState

/-- One engine operation, as named in the external interface. -/
inductive Op where
  | addKnowledge (cell : Cell) (count : ℤ)
  | markMine (cell : Cell)
  | markSafe (cell : Cell)
deriving DecidableEq

/-- Apply one operation to the engine state. -/
def stepOp (s : AIState) : Op → AIState
  | .addKnowledge c n => s.add_knowledge c n
  | .markMine c => s.mark_mine c
  | .markSafe c => s.mark_safe c

/-- Apply a sequence of operations to the engine state. -/
def runOps (s : AIState) (ops : List Op) : AIState := ops.foldl stepOp s

/-- Number of mine cells of a mine valuation B inside a finite set. -/
def mineCount (B : Cell → Bool) (t : Finset Cell) : ℤ :=
  ((t.filter (fun c => B c = true)).card : ℤ)

/-- A sentence is a true statement about the mine valuation B: exactly count
of its cells are mines. -/
def sentenceTrue (B : Cell → Bool) (s : Sentence) : Prop :=
  s.count = mineCount B s.cells

instance (B : Cell → Bool) (s : Sentence) : Decidable (sentenceTrue B s) :=
  decidable_of_iff (s.count = mineCount B s.cells) Iff.rfl

/-- Truthfulness of one operation with respect to the mine valuation B:
observe reports the true number of mines among the nearby cells of a
non-mine cell, and the external mark operations are applied only to cells
that truly are (respectively are not) mines.  The spec treats counts
inconsistent with board truth as caller misuse, out of scope. -/
def okOp (B : Cell → Bool) : Op → Prop
  | .addKnowledge c n => B c = false ∧ n = mineCount B (AIState.get_nearby_cells c).toFinset
  | .markMine c => B c = true
  | .markSafe c => B c = false

instance okOpDec (B : Cell → Bool) : (op : Op) → Decidable (okOp B op)
  | .addKnowledge c n =>
      decidable_of_iff
        (B c = false ∧ n = mineCount B (AIState.get_nearby_cells c).toFinset) Iff.rfl
  | .markMine c => decidable_of_iff (B c = true) Iff.rfl
  | .markSafe c => decidable_of_iff (B c = false) Iff.rfl

/-- A sequence of operations is truthful for B when each operation is
truthful in the state it is applied to. -/
def okTrace (B : Cell → Bool) : AIState → List Op → Prop
  | _, [] => True
  | s, op :: rest => okOp B op ∧ okTrace B (stepOp s op) rest

instance okTraceDec (B : Cell → Bool) : (s : AIState) → (ops : List Op) → Decidable (okTrace B s ops)
  | _, [] => .isTrue trivial
  | s, op :: rest =>
      haveI := okTraceDec B (stepOp s op) rest
      decidable_of_iff (okOp B op ∧ okTrace B (stepOp s op) rest) Iff.rfl

/-- The truth invariant of the engine with respect to mine valuation B:
every held sentence is true, and the moves, mines and safes sets are
correct. -/
structure Inv (B : Cell → Bool) (s : AIState) : Prop where
  knowledge_true : ∀ S ∈ s.knowledge, sentenceTrue B S
  moves_ok : ∀ c ∈ s.moves_made, B c = false
  mines_ok : ∀ c ∈ s.mines, B c = true
  safes_ok : ∀ c ∈ s.safes, B c = false

/-- The truthful two-observation trace on a board whose mines are (1,0) and
(1,1): observe (0,0) with count 2, then observe (0,1) with count 2. -/
def cascadeOps : List Op := [Op.addKnowledge (0, 0) 2, Op.addKnowledge (0, 1) 2]

/-- Modelled from the spec: a cell lies within the configured grid bounds,
0 ≤ row < height and 0 ≤ col < width.  Stated for comparison with the
hard-coded bounds used by get_nearby_cells. -/
def inConfiguredBounds (height width : ℤ) (c : Cell) : Prop :=
  0 ≤ c.1 ∧ c.1 < height ∧ 0 ≤ c.2 ∧ c.2 < width

instance (h w : ℤ) (c : Cell) : Decidable (inConfiguredBounds h w c) := by
  unfold inConfiguredBounds; infer_instance

/-- A fresh engine whose mines set already contains (0,0). -/
def stateWithMine : AIState := { AIState.init 8 8 with mines := {((0, 0) : Cell)} }

theorem sentenceTrue_nonneg {B : Cell → Bool} {s : Sentence} (h : sentenceTrue B s) :
    0 ≤ s.count ∧ s.count ≤ (s.cells.card : ℤ) := by
  unfold sentenceTrue mineCount at h
  refine ⟨by rw [h]; exact Int.natCast_nonneg _, ?_⟩
  rw [h]
  exact_mod_cast Finset.card_filter_le _ _

theorem mineCount_erase_not_mine {B : Cell → Bool} {t : Finset Cell} {c : Cell}
    (hc : B c = false) : mineCount B (t.erase c) = mineCount B t := by
  unfold mineCount
  rw [Finset.filter_erase, Finset.erase_eq_of_not_mem]
  simp [Finset.mem_filter, hc]

theorem mineCount_erase_mine {B : Cell → Bool} {t : Finset Cell} {c : Cell}
    (hc : B c = true) (hm : c ∈ t) : mineCount B (t.erase c) = mineCount B t - 1 := by
  unfold mineCount
  rw [Finset.filter_erase]
  exact Finset.cast_card_erase_of_mem (Finset.mem_filter.2 ⟨hm, hc⟩)

theorem filter_mine_sdiff (B : Cell → Bool) (s t : Finset Cell) :
    (s \ t).filter (fun c => B c = true)
      = s.filter (fun c => B c = true) \ t.filter (fun c => B c = true) := by
  ext x
  simp only [Finset.mem_filter, Finset.mem_sdiff]
  tauto

theorem mineCount_sdiff {B : Cell → Bool} {t u : Finset Cell} (h : t ⊆ u) :
    mineCount B (u \ t) = mineCount B u - mineCount B t := by
  unfold mineCount
  rw [filter_mine_sdiff, Finset.card_sdiff (Finset.filter_subset_filter _ h),
    Nat.cast_sub (Finset.card_le_card (Finset.filter_subset_filter _ h))]

theorem sub_sentenceTrue {B : Cell → Bool} {A C : Sentence} (hC : sentenceTrue B C)
    (hA : sentenceTrue B A) (h : A.cells ⊆ C.cells) : sentenceTrue B (C.sub A) := by
  unfold sentenceTrue Sentence.sub at *
  simp only
  rw [mineCount_sdiff h, ← hA, ← hC]

theorem all_mines_of_resolved {B : Cell → Bool} {s : Sentence} (hT : sentenceTrue B s)
    (hfull : s.count = (s.cells.card : ℤ)) : ∀ c ∈ s.cells, B c = true := by
  unfold sentenceTrue mineCount at hT
  have hcard : (s.cells.filter (fun c => B c = true)).card = s.cells.card := by
    exact_mod_cast hT.symm.trans hfull
  have heq : s.cells.filter (fun c => B c = true) = s.cells :=
    Finset.eq_of_subset_of_card_le (Finset.filter_subset _ _) (le_of_eq hcard.symm)
  intro c hc
  rw [← heq] at hc
  exact (Finset.mem_filter.1 hc).2

theorem all_safe_of_resolved {B : Cell → Bool} {s : Sentence} (hT : sentenceTrue B s)
    (h0 : s.count = 0) : ∀ c ∈ s.cells, B c = false := by
  unfold sentenceTrue mineCount at hT
  have hcard : (s.cells.filter (fun c => B c = true)).card = 0 := by
    exact_mod_cast hT.symm.trans h0
  have hemp := Finset.card_eq_zero.1 hcard
  intro c hc
  by_contra hb
  have hbt : B c = true := by simpa using hb
  have : c ∈ s.cells.filter (fun c => B c = true) := Finset.mem_filter.2 ⟨hc, hbt⟩
  simp [hemp] at this

theorem sentenceTrue_mark_safe {B : Cell → Bool} {s : Sentence} {c : Cell}
    (hc : B c = false) (h : sentenceTrue B s) : sentenceTrue B (s.mark_safe c) := by
  unfold Sentence.mark_safe
  split
  · unfold sentenceTrue at *
    simpa [mineCount_erase_not_mine hc] using h
  · exact h

theorem sentenceTrue_mark_mine {B : Cell → Bool} {s : Sentence} {c : Cell}
    (hc : B c = true) (h : sentenceTrue B s) : sentenceTrue B (s.mark_mine c) := by
  unfold Sentence.mark_mine
  split
  next hmem =>
    unfold sentenceTrue at *
    simp only
    rw [mineCount_erase_mine hc hmem, ← h]
  next => exact h

/-- The list surviving the closure sweep is a sublist of the input list. -/
theorem sweepList_sublist : ∀ (l : List Sentence) (m f : Finset Cell),
    List.Sublist (AIState.sweepList l m f).1 l
  | [], m, f => by simp [AIState.sweepList]
  | [x], m, f => by
      by_cases h1 : x.resolvesMines
      · simp [AIState.sweepList, h1]
      · by_cases h2 : x.resolvesSafes
        · simp [AIState.sweepList, h1, h2]
        · simp [AIState.sweepList, h1, h2]
  | x :: y :: rest2, m, f => by
      by_cases h1 : x.resolvesMines
      · simp only [AIState.sweepList, if_pos h1]
        exact List.Sublist.cons _ (List.Sublist.cons₂ _ (sweepList_sublist rest2 _ _))
      · by_cases h2 : x.resolvesSafes
        · simp only [AIState.sweepList, if_neg h1, if_pos h2]
          exact List.Sublist.cons _ (List.Sublist.cons₂ _ (sweepList_sublist rest2 _ _))
        · simp only [AIState.sweepList, if_neg h1, if_neg h2]
          exact List.Sublist.cons₂ _ (sweepList_sublist (y :: rest2) _ _)

/-- Cells the closure sweep adds to the mines and safes sets are truly mines
and truly safe, whenever every input sentence is true and the input sets are
already correct. -/
theorem sweepList_marks (B : Cell → Bool) : ∀ (l : List Sentence) (m f : Finset Cell),
    (∀ S ∈ l, sentenceTrue B S) → (∀ c ∈ m, B c = true) → (∀ c ∈ f, B c = false) →
    (∀ c ∈ (AIState.sweepList l m f).2.1, B c = true) ∧
    (∀ c ∈ (AIState.sweepList l m f).2.2, B c = false)
  | [], m, f, _, hm, hf => ⟨hm, hf⟩
  | [x], m, f, hl, hm, hf => by
      have hx := hl x (by simp)
      by_cases h1 : x.resolvesMines
      · have hcells := all_mines_of_resolved hx h1.1
        simp only [AIState.sweepList, if_pos h1]
        refine ⟨fun c hc => ?_, hf⟩
        rcases Finset.mem_union.1 hc with h | h
        · exact hm c h
        · exact hcells c h
      · by_cases h2 : x.resolvesSafes
        · have hcells := all_safe_of_resolved hx h2.1
          simp only [AIState.sweepList, if_neg h1, if_pos h2]
          refine ⟨hm, fun c hc => ?_⟩
          rcases Finset.mem_union.1 hc with h | h
          · exact hf c h
          · exact hcells c h
        · simp only [AIState.sweepList, if_neg h1, if_neg h2]
          exact ⟨hm, hf⟩
  | x :: y :: rest2, m, f, hl, hm, hf => by
      have hx := hl x (by simp)
      have hrest2 : ∀ S ∈ rest2, sentenceTrue B S := fun S hS => hl S (by simp [hS])
      by_cases h1 : x.resolvesMines
      · have hcells := all_mines_of_resolved hx h1.1
        have hm2 : ∀ c ∈ m ∪ x.cells, B c = true := by
          intro c hc
          rcases Finset.mem_union.1 hc with h | h
          · exact hm c h
          · exact hcells c h
        simp only [AIState.sweepList, if_pos h1]
        exact sweepList_marks B rest2 (m ∪ x.cells) f hrest2 hm2 hf
      · by_cases h2 : x.resolvesSafes
        · have hcells := all_safe_of_resolved hx h2.1
          have hf2 : ∀ c ∈ f ∪ x.cells, B c = false := by
            intro c hc
            rcases Finset.mem_union.1 hc with h | h
            · exact hf c h
            · exact hcells c h
          simp only [AIState.sweepList, if_neg h1, if_pos h2]
          exact sweepList_marks B rest2 m (f ∪ x.cells) hrest2 hm hf2
        · simp only [AIState.sweepList, if_neg h1, if_neg h2]
          exact sweepList_marks B (y :: rest2) m f (fun S hS => hl S (by simp [List.mem_cons.1 hS])) hm hf

/-- The closure sweep only ever grows the mines and safes sets. -/
theorem sweepList_mono : ∀ (l : List Sentence) (m f : Finset Cell),
    m ⊆ (AIState.sweepList l m f).2.1 ∧ f ⊆ (AIState.sweepList l m f).2.2
  | [], m, f => by simp [AIState.sweepList]
  | [x], m, f => by
      by_cases h1 : x.resolvesMines
      · simp [AIState.sweepList, h1]
      · by_cases h2 : x.resolvesSafes
        · simp [AIState.sweepList, h1, h2]
        · simp [AIState.sweepList, h1, h2]
  | x :: y :: rest2, m, f => by
      by_cases h1 : x.resolvesMines
      · simp only [AIState.sweepList, if_pos h1]
        have h := sweepList_mono rest2 (m ∪ x.cells) f
        exact ⟨Finset.Subset.trans Finset.subset_union_left h.1, h.2⟩
      · by_cases h2 : x.resolvesSafes
        · simp only [AIState.sweepList, if_neg h1, if_pos h2]
          have h := sweepList_mono rest2 m (f ∪ x.cells)
          exact ⟨h.1, Finset.Subset.trans Finset.subset_union_left h.2⟩
        · simp only [AIState.sweepList, if_neg h1, if_neg h2]
          exact sweepList_mono (y :: rest2) m f

/-- Anything in the result of the append-if-new fold was in the accumulator
or in the folded list. -/
theorem mem_append_new_aux : ∀ (l acc : List Sentence) (x : Sentence),
    x ∈ l.foldl (fun acc a => if a ∈ acc then acc else acc ++ [a]) acc → x ∈ acc ∨ x ∈ l
  | [], _, _, h => Or.inl h
  | a :: l, acc, x, h => by
      rcases mem_append_new_aux l (if a ∈ acc then acc else acc ++ [a]) x h with h2 | h2
      · by_cases ha : a ∈ acc
        · rw [if_pos ha] at h2
          exact Or.inl h2
        · rw [if_neg ha] at h2
          rcases List.mem_append.1 h2 with h3 | h3
          · exact Or.inl h3
          · simp only [List.mem_singleton] at h3
            subst h3
            exact Or.inr (by simp)
      · exact Or.inr (List.mem_cons_of_mem _ h2)

/-- The append-if-new fold preserves freedom from duplicates. -/
theorem nodup_append_new_aux : ∀ (l acc : List Sentence), acc.Nodup →
    (l.foldl (fun acc a => if a ∈ acc then acc else acc ++ [a]) acc).Nodup
  | [], _, h => h
  | a :: l, acc, h => by
      apply nodup_append_new_aux l
      show (if a ∈ acc then acc else acc ++ [a]).Nodup
      by_cases ha : a ∈ acc
      · rw [if_pos ha]
        exact h
      · rw [if_neg ha]
        simp [List.nodup_append, h, ha]

theorem mem_append_new {K l : List Sentence} {x : Sentence}
    (h : x ∈ AIState.append_new K l) : x ∈ K ∨ x ∈ l :=
  mem_append_new_aux l K x h

theorem mem_remove_duplicates {l : List Sentence} {x : Sentence}
    (h : x ∈ AIState.remove_duplicates l) : x ∈ l := by
  rcases mem_append_new_aux l [] x h with h2 | h2
  · simp at h2
  · exact h2

theorem remove_duplicates_nodup (l : List Sentence) : (AIState.remove_duplicates l).Nodup :=
  nodup_append_new_aux l [] List.nodup_nil

theorem Inv.initial (B : Cell → Bool) (h w : ℤ) : Inv B (AIState.init h w) := by
  constructor <;> simp [AIState.init]

theorem Inv.mark_safe_op {B : Cell → Bool} {s : AIState} {c : Cell}
    (hInv : Inv B s) (hc : B c = false) : Inv B (s.mark_safe c) := by
  refine ⟨?_, hInv.moves_ok, hInv.mines_ok, ?_⟩
  · intro S hS
    simp only [AIState.mark_safe, List.mem_map] at hS
    obtain ⟨T, hT, rfl⟩ := hS
    exact sentenceTrue_mark_safe hc (hInv.knowledge_true T hT)
  · intro x hx
    rcases Finset.mem_insert.1 hx with rfl | hx
    · exact hc
    · exact hInv.safes_ok x hx

theorem Inv.mark_mine_op {B : Cell → Bool} {s : AIState} {c : Cell}
    (hInv : Inv B s) (hc : B c = true) : Inv B (s.mark_mine c) := by
  refine ⟨?_, hInv.moves_ok, ?_, hInv.safes_ok⟩
  · intro S hS
    simp only [AIState.mark_mine, List.mem_map] at hS
    obtain ⟨T, hT, rfl⟩ := hS
    exact sentenceTrue_mark_mine hc (hInv.knowledge_true T hT)
  · intro x hx
    rcases Finset.mem_insert.1 hx with rfl | hx
    · exact hc
    · exact hInv.mines_ok x hx

/-- The new sentence built by add_knowledge is true: its cells are the
nearby cells minus moves already made, and every made move is a non-mine,
so the filtered set contains the same mines as the full neighbourhood. -/
theorem sentenceTrue_observe {B : Cell → Bool} {s2 : AIState} {cell : Cell} {n : ℤ}
    (hmoves : ∀ c ∈ s2.moves_made, B c = false)
    (hn : n = mineCount B (AIState.get_nearby_cells cell).toFinset) :
    sentenceTrue B ⟨(s2.free_neighbours cell).toFinset, n⟩ := by
  have hfilters : (s2.free_neighbours cell).toFinset.filter (fun c => B c = true)
      = (AIState.get_nearby_cells cell).toFinset.filter (fun c => B c = true) := by
    ext x
    constructor
    · intro hx
      have h1 := Finset.mem_filter.1 hx
      refine Finset.mem_filter.2 ⟨?_, h1.2⟩
      have h2 := List.mem_filter.1 (List.mem_toFinset.1 h1.1)
      exact List.mem_toFinset.2 h2.1
    · intro hx
      have h1 := Finset.mem_filter.1 hx
      refine Finset.mem_filter.2 ⟨?_, h1.2⟩
      refine List.mem_toFinset.2 (List.mem_filter.2 ⟨List.mem_toFinset.1 h1.1, ?_⟩)
      simp only [decide_eq_true_eq]
      intro hmem
      rw [hmoves x hmem] at h1
      exact Bool.false_ne_true h1.2
  unfold sentenceTrue
  simp only
  rw [hn]
  unfold mineCount
  rw [hfilters]

/-- Every sentence derived by the subset-inference pass from true sentences
is true. -/
theorem derive_additional_true {B : Cell → Bool} {K : List Sentence} {S : Sentence}
    (hK : ∀ k ∈ K, sentenceTrue B k) (hS : sentenceTrue B S) :
    ∀ x ∈ AIState.derive_additional K S, sentenceTrue B x := by
  intro x hx
  unfold AIState.derive_additional at hx
  rw [List.mem_filterMap] at hx
  obtain ⟨k, hk, hfk⟩ := hx
  by_cases h1 : S.cells ⊆ k.cells
  · rw [if_pos h1] at hfk
    injection hfk with h
    subst h
    exact sub_sentenceTrue (hK k hk) hS h1
  · rw [if_neg h1] at hfk
    by_cases h2 : k.cells ⊆ S.cells
    · rw [if_pos h2] at hfk
      injection hfk with h
      subst h
      exact sub_sentenceTrue hS (hK k hk) h2
    · rw [if_neg h2] at hfk
      exact Option.noConfusion hfk

/-- Every sentence in the pre-sweep knowledge list of a truthful observation
is true. -/
theorem pre_sweep_true {B : Cell → Bool} {s : AIState} {cell : Cell} {n : ℤ}
    (hs2 : Inv B (AIState.observed s cell))
    (hsent : sentenceTrue B (AIState.new_sentence s cell n)) :
    ∀ S ∈ AIState.pre_sweep s cell n, sentenceTrue B S := by
  intro S hS
  have hmem := mem_remove_duplicates hS
  rcases List.mem_append.1 hmem with h | h
  · rcases mem_append_new h with h2 | h2
    · exact hs2.knowledge_true S h2
    · exact derive_additional_true hs2.knowledge_true hsent S h2
  · simp only [List.mem_singleton] at h
    subst h
    exact hsent

theorem Inv.add_knowledge_op {B : Cell → Bool} {s : AIState} {cell : Cell} {n : ℤ}
    (hInv : Inv B s) (hB : B cell = false)
    (hn : n = mineCount B (AIState.get_nearby_cells cell).toFinset) :
    Inv B (s.add_knowledge cell n) := by
  have hs1 : Inv B { s with moves_made := insert cell s.moves_made } := by
    refine ⟨hInv.knowledge_true, ?_, hInv.mines_ok, hInv.safes_ok⟩
    intro c hc
    rcases Finset.mem_insert.1 hc with rfl | hc
    · exact hB
    · exact hInv.moves_ok c hc
  have hs2 : Inv B (AIState.observed s cell) := Inv.mark_safe_op hs1 hB
  have hsent : sentenceTrue B (AIState.new_sentence s cell n) :=
    sentenceTrue_observe hs2.moves_ok hn
  have hk3 := pre_sweep_true hs2 hsent
  have hmarks := sweepList_marks B (AIState.pre_sweep s cell n)
    (AIState.observed s cell).mines (AIState.observed s cell).safes
    hk3 hs2.mines_ok hs2.safes_ok
  have hsub := sweepList_sublist (AIState.pre_sweep s cell n)
    (AIState.observed s cell).mines (AIState.observed s cell).safes
  refine ⟨?_, hs2.moves_ok, hmarks.1, hmarks.2⟩
  intro S hS
  exact hk3 S (hsub.subset hS)

/-- The truth invariant is preserved by every truthful operation. -/
theorem Inv.step {B : Cell → Bool} {s : AIState} {op : Op}
    (hInv : Inv B s) (hok : okOp B op) : Inv B (stepOp s op) := by
  cases op with
  | addKnowledge c n => exact Inv.add_knowledge_op hInv hok.1 hok.2
  | markMine c => exact Inv.mark_mine_op hInv hok
  | markSafe c => exact Inv.mark_safe_op hInv hok

/-- The truth invariant is preserved along every truthful trace. -/
theorem Inv.run {B : Cell → Bool} : ∀ (ops : List Op) (s : AIState),
    Inv B s → okTrace B s ops → Inv B (runOps s ops)
  | [], _, hInv, _ => hInv
  | op :: rest, s, hInv, hok =>
      Inv.run rest (stepOp s op) (Inv.step hInv hok.1) hok.2

/-- C1: the closure pass does not reach a fixed point.  After the truthful
trace cascadeOps (board mines (1,0) and (1,1)), the knowledge list still
contains the constraint with cells (0,2), (1,2) and count 0, yet neither
cell has been added to the safes set: the sweep marks into a list that is
then discarded, and removing an element makes the iteration skip the next
one. -/
theorem closure_misses_resolved_constraint :
    (⟨{(0, 2), (1, 2)}, 0⟩ : Sentence) ∈ (runOps (AIState.init 8 8) cascadeOps).knowledge ∧
    (0, 2) ∉ (runOps (AIState.init 8 8) cascadeOps).safes ∧
    (1, 2) ∉ (runOps (AIState.init 8 8) cascadeOps).safes := by decide

/-- C2: resolved cells are not purged from the remaining constraints.  After
the truthful trace cascadeOps, cell (1,0) is in the mines set but still
appears in the cell set of a constraint held in knowledge. -/
theorem resolved_mine_not_purged :
    (1, 0) ∈ (runOps (AIState.init 8 8) cascadeOps).mines ∧
    (⟨{(0, 2), (1, 0), (1, 1), (1, 2)}, 2⟩ : Sentence)
      ∈ (runOps (AIState.init 8 8) cascadeOps).knowledge := by decide

/-- C3: make_random_move contradicts the claim.  MINE_COUNT is the constant 8
whatever grid is configured (the constructor has no mine-count parameter),
and in a state where no unvisited non-mine cell remains but fewer than 8
mines are known, the code reaches random.choice on an empty list, which
raises IndexError instead of returning None. -/
theorem random_move_hardcoded_and_crashes :
    (AIState.init 3 5).MINE_COUNT = 8 ∧
    AIState.make_random_move (runOps (AIState.init 1 1) [Op.addKnowledge (0, 0) 0])
      = Except.error () := by
  refine ⟨rfl, ?_⟩
  have h : ((AIState.all_cells (runOps (AIState.init 1 1) [Op.addKnowledge (0, 0) 0])
      \ (runOps (AIState.init 1 1) [Op.addKnowledge (0, 0) 0]).moves_made)
      \ (runOps (AIState.init 1 1) [Op.addKnowledge (0, 0) 0]).mines) = (∅ : Finset Cell) := by
    decide
  unfold AIState.make_random_move
  rw [h, Finset.sort_empty]
  decide

/-- C4: get_nearby_cells ignores the configured grid bounds.  For an engine
configured with height 3 and width 3, the neighbour computation still
returns (3,3) for the cell (2,2), a cell outside the configured grid,
because the bounds check is the hard-coded range(0, 8); indeed the method
reads no configuration at all, so its result is the same for every
configured size. -/
theorem nearby_cells_ignore_configured_bounds :
    (3, 3) ∈ AIState.get_nearby_cells (2, 2) ∧ ¬ inConfiguredBounds 3 3 (3, 3) := by decide

/-- C5 counterexample: the constraint invariant fails for an arbitrary call
sequence.  A single add_knowledge call with count 4 on a corner cell leaves
a sentence with three cells and count 4 in the knowledge list. -/
theorem constraint_invariant_violated :
    (⟨{(0, 1), (1, 0), (1, 1)}, 4⟩ : Sentence)
      ∈ (runOps (AIState.init 8 8) [Op.addKnowledge (0, 0) 4]).knowledge ∧
    ¬ (⟨{(0, 1), (1, 0), (1, 1)}, 4⟩ : Sentence).count
        ≤ ((⟨{(0, 1), (1, 0), (1, 1)}, 4⟩ : Sentence).cells.card : ℤ) := by decide

/-- C5 (amended): for every truthful operation sequence, every constraint
held in the knowledge list satisfies 0 ≤ count ≤ number of cells. -/
theorem constraint_invariant_of_truthful (B : Cell → Bool) (h w : ℤ) (ops : List Op)
    (hok : okTrace B (AIState.init h w) ops) :
    ∀ S ∈ (runOps (AIState.init h w) ops).knowledge,
      0 ≤ S.count ∧ S.count ≤ (S.cells.card : ℤ) := by
  intro S hS
  exact sentenceTrue_nonneg ((Inv.run ops _ (Inv.initial B h w) hok).knowledge_true S hS)

/-- C5 witness: the amended theorem applied to the truthful observation of
(0,0) with count 1 on a board whose only nearby mine is (1,1). -/
theorem constraint_invariant_of_truthful_witness :
    0 ≤ (⟨{(0, 1), (1, 0), (1, 1)}, 1⟩ : Sentence).count ∧
    (⟨{(0, 1), (1, 0), (1, 1)}, 1⟩ : Sentence).count
      ≤ ((⟨{(0, 1), (1, 0), (1, 1)}, 1⟩ : Sentence).cells.card : ℤ) :=
  constraint_invariant_of_truthful (fun c => decide (c = ((1, 1) : Cell))) 8 8
    [Op.addKnowledge (0, 0) 1] (by decide) ⟨{(0, 1), (1, 0), (1, 1)}, 1⟩ (by decide)

/-- C6 counterexample: disjointness fails for an arbitrary call sequence.
Marking (0,0) a mine and then marking it safe leaves it in both sets. -/
theorem disjointness_violated :
    (0, 0) ∈ (runOps (AIState.init 8 8) [Op.markMine (0, 0), Op.markSafe (0, 0)]).mines ∩
      (runOps (AIState.init 8 8) [Op.markMine (0, 0), Op.markSafe (0, 0)]).safes := by decide

/-- C6 (amended): for every truthful operation sequence, the mines and safes
sets are disjoint after the sequence. -/
theorem disjointness_of_truthful (B : Cell → Bool) (h w : ℤ) (ops : List Op)
    (hok : okTrace B (AIState.init h w) ops) :
    (runOps (AIState.init h w) ops).mines ∩ (runOps (AIState.init h w) ops).safes = ∅ := by
  have hInv := Inv.run ops _ (Inv.initial B h w) hok
  ext c
  simp only [Finset.mem_inter, Finset.not_mem_empty, iff_false, not_and]
  intro hm hs
  have := (hInv.mines_ok c hm).symm.trans (hInv.safes_ok c hs)
  simp at this

/-- C6 witness: the amended theorem applied to the truthful trace cascadeOps
on the board whose mines are (1,0) and (1,1). -/
theorem disjointness_of_truthful_witness :
    (runOps (AIState.init 8 8) cascadeOps).mines ∩
      (runOps (AIState.init 8 8) cascadeOps).safes = ∅ :=
  disjointness_of_truthful
    (fun c => decide (c = ((1, 0) : Cell) ∨ c = ((1, 1) : Cell))) 8 8 cascadeOps (by decide)

/-- C7 counterexample: two constraints can each satisfy the invariant, with
one cell set contained in the other, while their difference violates it:
the subtraction of a one-cell count-1 sentence from a two-cell count-0
sentence has count -1. -/
theorem sub_invariant_violated :
    (0 ≤ (⟨{(0, 0)}, 1⟩ : Sentence).count ∧
      (⟨{(0, 0)}, 1⟩ : Sentence).count ≤ ((⟨{(0, 0)}, 1⟩ : Sentence).cells.card : ℤ)) ∧
    (0 ≤ (⟨{(0, 0), (0, 1)}, 0⟩ : Sentence).count ∧
      (⟨{(0, 0), (0, 1)}, 0⟩ : Sentence).count
        ≤ ((⟨{(0, 0), (0, 1)}, 0⟩ : Sentence).cells.card : ℤ)) ∧
    (⟨{(0, 0)}, 1⟩ : Sentence).cells ⊆ (⟨{(0, 0), (0, 1)}, 0⟩ : Sentence).cells ∧
    ((⟨{(0, 0), (0, 1)}, 0⟩ : Sentence).sub ⟨{(0, 0)}, 1⟩).count < 0 := by decide

/-- C7 (amended): when constraints A and C are both true of one common mine
valuation and the cells of A are contained in those of C, the derived
constraint C.sub A satisfies 0 ≤ count ≤ number of cells, and has count 0
whenever its cell set is empty. -/
theorem sub_invariant_of_true (B : Cell → Bool) (A C : Sentence)
    (hA : sentenceTrue B A) (hC : sentenceTrue B C) (hsub : A.cells ⊆ C.cells) :
    (0 ≤ (C.sub A).count ∧ (C.sub A).count ≤ (((C.sub A).cells.card : ℤ))) ∧
    ((C.sub A).cells = ∅ → (C.sub A).count = 0) := by
  have ht := sub_sentenceTrue hC hA hsub
  refine ⟨sentenceTrue_nonneg ht, ?_⟩
  intro hemp
  rw [ht, hemp]
  simp [mineCount]

/-- C7 witness: the amended theorem applied to the true sentences
cells (0,0) count 1 and cells (0,0), (0,1) count 1 on the board whose
only mine is (0,0). -/
theorem sub_invariant_of_true_witness :
    (0 ≤ ((⟨{(0, 0), (0, 1)}, 1⟩ : Sentence).sub ⟨{(0, 0)}, 1⟩).count ∧
      ((⟨{(0, 0), (0, 1)}, 1⟩ : Sentence).sub ⟨{(0, 0)}, 1⟩).count
        ≤ ((((⟨{(0, 0), (0, 1)}, 1⟩ : Sentence).sub ⟨{(0, 0)}, 1⟩).cells.card : ℤ))) ∧
    (((⟨{(0, 0), (0, 1)}, 1⟩ : Sentence).sub ⟨{(0, 0)}, 1⟩).cells = ∅ →
      ((⟨{(0, 0), (0, 1)}, 1⟩ : Sentence).sub ⟨{(0, 0)}, 1⟩).count = 0) :=
  sub_invariant_of_true (fun c => decide (c = ((0, 0) : Cell)))
    ⟨{(0, 0)}, 1⟩ ⟨{(0, 0), (0, 1)}, 1⟩ (by decide) (by decide) (by decide)

/-- C8 counterexample: make_safe_move can return a cell in the mines set.
In the state reached by marking (0,0) a mine and then marking it safe, the
only candidate is (0,0), so make_safe_move returns it although it is a
known mine. -/
theorem safe_move_returns_known_mine :
    AIState.make_safe_move (runOps (AIState.init 8 8) [Op.markMine (0, 0), Op.markSafe (0, 0)])
      = some (0, 0) ∧
    (0, 0) ∈ (runOps (AIState.init 8 8) [Op.markMine (0, 0), Op.markSafe (0, 0)]).mines := by
  constructor
  · have h : ((runOps (AIState.init 8 8) [Op.markMine (0, 0), Op.markSafe (0, 0)]).safes
        \ (runOps (AIState.init 8 8) [Op.markMine (0, 0), Op.markSafe (0, 0)]).moves_made)
        = {((0, 0) : Cell)} := by decide
    unfold AIState.make_safe_move pick
    rw [h, Finset.sort_singleton]
    rfl
  · decide

/-- C8 (amended): make_safe_move returns None exactly when safes minus
moves_made is empty; otherwise the returned cell is in safes and not in
moves_made, and it avoids the mines set whenever mines and safes are
disjoint (which holds on every truthful trace). -/
theorem make_safe_move_spec (s : AIState) :
    (AIState.make_safe_move s = none ↔ s.safes \ s.moves_made = ∅) ∧
    (∀ c : Cell, AIState.make_safe_move s = some c →
      c ∈ s.safes ∧ c ∉ s.moves_made ∧ (s.mines ∩ s.safes = ∅ → c ∉ s.mines)) := by
  constructor
  · unfold AIState.make_safe_move pick
    rw [List.head?_eq_none_iff]
    constructor
    · intro h
      apply Finset.eq_empty_of_forall_not_mem
      intro x hx
      have hx2 := (Finset.mem_sort cellLe).2 hx
      rw [h] at hx2
      exact List.not_mem_nil x hx2
    · intro h
      rw [h, Finset.sort_empty]
  · intro c hc
    unfold AIState.make_safe_move pick at hc
    have hmem : c ∈ s.safes \ s.moves_made :=
      (Finset.mem_sort cellLe).1 (List.mem_of_mem_head? (Option.mem_def.2 hc))
    have hsd := Finset.mem_sdiff.1 hmem
    refine ⟨hsd.1, hsd.2, ?_⟩
    intro hdisj hmine
    have hint : c ∈ s.mines ∩ s.safes := Finset.mem_inter.2 ⟨hmine, hsd.1⟩
    rw [hdisj] at hint
    exact Finset.not_mem_empty c hint

/-- C8 witness: the amended theorem applied to the state reached by marking
(0,0) safe in a fresh engine, where make_safe_move returns (0,0). -/
theorem make_safe_move_spec_witness :
    (0, 0) ∈ (runOps (AIState.init 8 8) [Op.markSafe (0, 0)]).safes ∧
    (0, 0) ∉ (runOps (AIState.init 8 8) [Op.markSafe (0, 0)]).moves_made ∧
    ((runOps (AIState.init 8 8) [Op.markSafe (0, 0)]).mines ∩
        (runOps (AIState.init 8 8) [Op.markSafe (0, 0)]).safes = ∅ →
      (0, 0) ∉ (runOps (AIState.init 8 8) [Op.markSafe (0, 0)]).mines) :=
  (make_safe_move_spec (runOps (AIState.init 8 8) [Op.markSafe (0, 0)])).2 (0, 0) (by
    have h : ((runOps (AIState.init 8 8) [Op.markSafe (0, 0)]).safes
        \ (runOps (AIState.init 8 8) [Op.markSafe (0, 0)]).moves_made)
        = {((0, 0) : Cell)} := by decide
    unfold AIState.make_safe_move pick
    rw [h, Finset.sort_singleton]
    rfl)

/-- C9: after any add_knowledge call, from any prior state, the knowledge
list contains no two value-equal sentences: the list is deduplicated just
before the closure sweep, and the sweep only removes elements. -/
theorem add_knowledge_knowledge_nodup (s : AIState) (cell : Cell) (count : ℤ) :
    ((s.add_knowledge cell count).knowledge).Nodup := by
  have h1 := remove_duplicates_nodup
    (AIState.append_new (AIState.observed s cell).knowledge
        (AIState.derive_additional (AIState.observed s cell).knowledge
          (AIState.new_sentence s cell count))
      ++ [AIState.new_sentence s cell count])
  have h2 := sweepList_sublist (AIState.pre_sweep s cell count)
    (AIState.observed s cell).mines (AIState.observed s cell).safes
  exact List.Nodup.sublist h2 h1

/-- C10: add_knowledge unconditionally records the observed cell in
moves_made and safes, and if the cell was already in the mines set it stays
there, ending up in mines and safes simultaneously. -/
theorem add_knowledge_marks_observed_cell (s : AIState) (cell : Cell) (count : ℤ) :
    cell ∈ (s.add_knowledge cell count).moves_made ∧
    cell ∈ (s.add_knowledge cell count).safes ∧
    (cell ∈ s.mines →
      cell ∈ (s.add_knowledge cell count).mines ∩ (s.add_knowledge cell count).safes) := by
  have hmono := sweepList_mono (AIState.pre_sweep s cell count)
    (AIState.observed s cell).mines (AIState.observed s cell).safes
  have hmoves : cell ∈ (s.add_knowledge cell count).moves_made := by
    show cell ∈ (AIState.observed s cell).moves_made
    simp [AIState.observed, AIState.mark_safe]
  have hsafes : cell ∈ (s.add_knowledge cell count).safes := by
    refine hmono.2 ?_
    show cell ∈ (AIState.observed s cell).safes
    simp [AIState.observed, AIState.mark_safe]
  refine ⟨hmoves, hsafes, ?_⟩
  intro hmine
  refine Finset.mem_inter.2 ⟨?_, hsafes⟩
  refine hmono.1 ?_
  show cell ∈ (AIState.observed s cell).mines
  simpa [AIState.observed, AIState.mark_safe] using hmine

/-- C10 witness: the theorem applied to a fresh engine whose mines set
already contains (0,0), then observed at (0,0). -/
theorem add_knowledge_marks_observed_cell_witness :
    (0, 0) ∈ (AIState.add_knowledge stateWithMine (0, 0) 0).mines ∩
      (AIState.add_knowledge stateWithMine (0, 0) 0).safes :=
  (add_knowledge_marks_observed_cell stateWithMine (0, 0) 0).2.2 (by decide)

end Minesweeper
